import Mathlib

/-!
# Verification of the two-phase simplex solver (`simplex.py`)

A shallow embedding of the solver's core: the canonical pivot engine
`solve_canonical_LP`, the objective-row re-canonicalisation
`transform_canonical`, and the phase-1 → phase-2 hand-off inside `solve_LP`.

Modelling conventions:
* the tableau is a row-major `List (List ℚ)`; float arithmetic is embedded
  as exact rational arithmetic, with the tolerance `eps = 1e-10` kept
  symbolically;
* out-of-range reads default to `0`, mirroring that the Python code never
  reads out of range on well-shaped inputs;
* the unbounded `while True:` loop becomes a fuel-indexed iteration
  (`none` = fuel exhausted, i.e. the Python process still looping);
* `np.divide(b, coefs, where=(coefs > eps))` leaves masked-out entries
  uninitialised; freshly allocated numpy buffers read back as `0.0`, and the
  very next line `bounds[bounds < 1e-10] = inf` sends every such entry to
  infinity, so masked-out entries are modelled as `⊤` directly through the
  `raw < eps` clamp (a raw value of `0` is always `< eps`);
* exceptions (`AssertionError` on entry, the two `ValueError`s) become the
  explicit error type `SolveErr`.
-/

set_option allowUnsafeReducibility true
set_option synthInstance.maxSize 1000
attribute [local semireducible] Rat.mul Rat.div Rat.add Rat.sub Rat.neg Rat.inv Rat.ofScientific

namespace Simplex

/-- Row-major rational matrix standing for the numpy 2-D float array. -/
abbrev Mat := List (List ℚ)

/-- The process-wide tolerance `1e-10` used by every comparison in the code. -/
def eps : ℚ := 1 / 10000000000

/-- `entry T i j` = `T[i, j]`, with `0` for out-of-range reads. -/
def entry (T : Mat) (i j : Nat) : ℚ := (T.getD i []).getD j 0

/-- Number of rows of the tableau (`LP_matrix.shape[0]`). -/
def nRows (T : Mat) : Nat := T.length

/-- Number of columns of the tableau (`LP_matrix.shape[1]`), read off the
first row as numpy does for a rectangular array. -/
def nCols (T : Mat) : Nat := (T.headD []).length

/-- The entry assertions of `solve_canonical_LP` (lines 9–21): basis size is
`rows - 1`, `|c[b]| < 1e-10` for every basic column `b`, and every
constraint right-hand side is strictly greater than `1e-10`.  The
`ndim`/`dtype` assertions are enforced by the types of the embedding. -/
def checkCanonical (T : Mat) (bases : List Nat) : Bool :=
  (bases.length = nRows T - 1) &&
  (bases.all fun bi => |entry T 0 bi| < eps) &&
  ((List.range (nRows T - 1)).all fun r => eps < entry T (r + 1) (nCols T - 1))

/-- `np.where(c < -1e-10)[0]` followed by taking index `[0]`: the first
column (among the `columns - 1` non-RHS columns) whose reduced cost is
below `-eps`. -/
def firstEnter (T : Mat) : Option Nat :=
  (List.range (nCols T - 1)).find? fun j => entry T 0 j < -eps

/-- One slot of the `bounds` array: `b / coef` where `coef > eps`; the
masked-out / uninitialised slots read back `0`; then
`bounds[bounds < 1e-10] = inf` sends every raw value `< eps` to `⊤`
(a masked-out slot's `0` is always `< eps`). -/
def boundOf (coef rhs : ℚ) : WithTop ℚ :=
  if (if eps < coef then rhs / coef else 0) < eps then ⊤
  else (((if eps < coef then rhs / coef else 0) : ℚ) : WithTop ℚ)

/-- The full `bounds` vector for entering column `ie`, one slot per
constraint row. -/
def boundsList (T : Mat) (ie : Nat) : List (WithTop ℚ) :=
  (List.range (nRows T - 1)).map fun r =>
    boundOf (entry T (r + 1) ie) (entry T (r + 1) (nCols T - 1))

/-- Minimum of a list of extended rationals, `⊤` when empty. -/
def listMin (bs : List (WithTop ℚ)) : WithTop ℚ := bs.foldl min ⊤

/-- `np.argmin`: the first index attaining the minimum. -/
def argminIdx (bs : List (WithTop ℚ)) : Nat :=
  bs.findIdx fun ob => decide (ob = listMin bs)

/-- The elementary transformation matrix built at lines 52–54:
`modify = np.identity(rows)`, then `modify[:, i_leave] = -T[:, i_enter] / p`
and `modify[i_leave, i_leave] = 1 / p`. -/
def modifyMatrix (T : Mat) (lr ec : Nat) : Mat :=
  (List.range (nRows T)).map fun r =>
    (List.range (nRows T)).map fun k =>
      if k = lr then
        (if r = lr then 1 / entry T lr ec else -(entry T r ec) / entry T lr ec)
      else if k = r then 1 else 0

/-- `np.dot`: matrix product, `cols` columns in the result, inner dimension
the row count of `B`. -/
def matMul (A B : Mat) (cols : Nat) : Mat :=
  (List.range A.length).map fun r =>
    (List.range cols).map fun j =>
      ∑ k ∈ Finset.range B.length, entry A r k * entry B k j

/-- `LP_matrix[:, :] = np.dot(modify, LP_matrix)`: the pivot as implemented,
by left multiplication with the elementary transformation matrix. -/
def pivotTableau (T : Mat) (lr ec : Nat) : Mat :=
  matMul (modifyMatrix T lr ec) T (nCols T)

/-- `solution = np.zeros_like(c); solution[bases] = b`: numpy fancy-index
assignment, later duplicate indices overwriting earlier ones. -/
def assignSol (n : Nat) (bases : List Nat) (b : List ℚ) : List ℚ :=
  (bases.zip b).foldl (fun s p => s.set p.1 p.2) (List.replicate n 0)

/-- The constraint-row right-hand sides `b = LP_matrix[1:, columns-1]`. -/
def rhsOf (T : Mat) : List ℚ :=
  (List.range (nRows T - 1)).map fun r => entry T (r + 1) (nCols T - 1)

/-- Outcome of one iteration of the `while True:` loop. -/
inductive StepOut where
  | optimal (sol : List ℚ) (value : ℚ)
  | unbounded
  | next (T : Mat) (bases : List Nat)
deriving DecidableEq

/-- One iteration of the loop body of `solve_canonical_LP` (lines 24–55):
pick the entering column, run the ratio test, either return the solution,
raise Unbounded, or pivot and update the basis. -/
def simplexStep (T : Mat) (bases : List Nat) : StepOut :=
  match firstEnter T with
  | none =>
      StepOut.optimal (assignSol (nCols T - 1) bases (rhsOf T))
        (-(entry T 0 (nCols T - 1)))
  | some ie =>
      let bs := boundsList T ie
      if bs.all (fun ob => decide (ob = ⊤)) then StepOut.unbounded
      else
        StepOut.next (pivotTableau T (argminIdx bs + 1) ie)
          (bases.set (argminIdx bs) ie)

/-- The three exceptions of the solver. -/
inductive SolveErr where
  | invalidInput
  | unbounded
  | infeasible
deriving DecidableEq

deriving instance DecidableEq for Except

/-- The `while True:` loop with fuel; returns the solution vector, the
objective value, and the final (in-place mutated) tableau and basis. -/
def solveFuel : Nat → Mat → List Nat → Option (Except SolveErr (List ℚ × ℚ × Mat × List Nat))
  | 0, _, _ => none
  | fuel + 1, T, bases =>
      match simplexStep T bases with
      | StepOut.optimal s v => some (Except.ok (s, v, T, bases))
      | StepOut.unbounded => some (Except.error SolveErr.unbounded)
      | StepOut.next T' B' => solveFuel fuel T' B'

/-- `solve_canonical_LP`: entry assertions, then the pivot loop. -/
def solve_canonical_LP (fuel : Nat) (T : Mat) (bases : List Nat) :
    Option (Except SolveErr (List ℚ × ℚ × Mat × List Nat)) :=
  if checkCanonical T bases then solveFuel fuel T bases
  else some (Except.error SolveErr.invalidInput)

/-- The pivot as the spec words it (§4.1 step 5): rescale the leaving row by
`1/p`; every other row becomes that row minus its pre-pivot entering-column
coefficient times the rescaled leaving row — one simultaneous transformation
reading only pre-pivot values. -/
def pivotRowOps (T : Mat) (lr ec : Nat) : Mat :=
  (List.range (nRows T)).map fun r =>
    if r = lr then
      (List.range (nCols T)).map fun j => entry T lr j / entry T lr ec
    else
      (List.range (nCols T)).map fun j =>
        entry T r j - entry T r ec * (entry T lr j / entry T lr ec)

/-- `transform_canonical` (lines 64–68): `transformer = c_and_z[bases]` is a
copy of the objective row's coefficients at the basic columns, captured
before any write; `c_and_z -= transformer @ A_and_b` subtracts the weighted
sum of the constraint rows from the whole objective row. -/
def transform_canonical (T : Mat) (bases : List Nat) : Mat :=
  T.set 0 ((List.range (T.getD 0 []).length).map fun j =>
    entry T 0 j -
      ∑ r ∈ Finset.range bases.length, entry T 0 (bases.getD r 0) * entry T (r + 1) j)

/-- The full observable effect of the Python call `transform_canonical(T, bases)`:
the (mutated) tableau together with the basis array, which the function body
never writes. -/
def transform_canonical_call (T : Mat) (bases : List Nat) : Mat × List Nat :=
  (transform_canonical T bases, bases)

/-- `LP_matrix[0] = 0; LP_matrix[0, phase1_slack_vars] = 1` (lines 84–85):
the phase-1 objective row, `1` on auxiliary columns, `0` elsewhere
(right-hand-side slot included). -/
def setPhase1Objective (T : Mat) (aux : List Nat) : Mat :=
  T.set 0 ((List.range (T.getD 0 []).length).map fun j =>
    if aux.contains j then 1 else 0)

/-- `LP_matrix[0, :columns-1] = c` (line 92): restore the saved true
objective coefficients, leaving the objective row's right-hand-side slot. -/
def restoreObjective (T : Mat) (c : List ℚ) : Mat :=
  T.set 0 ((List.range (T.getD 0 []).length).map fun j =>
    if j < c.length then c.getD j 0 else entry T 0 j)

/-- `LP_matrix[:, phase1_slack_vars] = 0` (line 93): zero the auxiliary
columns in every row. -/
def zeroColumns (T : Mat) (aux : List Nat) : Mat :=
  T.map fun row => (List.range row.length).map fun j =>
    if aux.contains j then 0 else row.getD j 0

/-- The phase-1 block of `solve_LP` (lines 81–96), taking the standardizer's
outputs (canonical tableau, basis, auxiliary-column list) as inputs since
the standardizer is an external collaborator.  Returns the tableau and basis
handed to the phase-2 `solve_canonical_LP` call, or the error raised. -/
def solve_LP_phase1 (fuel : Nat) (T : Mat) (bases : List Nat) (aux : List Nat) :
    Option (Except SolveErr (Mat × List Nat)) :=
  if aux.isEmpty then some (Except.ok (T, bases))
  else
    let c := (List.range (nCols T - 1)).map fun j => entry T 0 j
    let T1 := transform_canonical (setPhase1Objective T aux) bases
    match solve_canonical_LP fuel T1 bases with
    | none => none
    | some (Except.error e) => some (Except.error e)
    | some (Except.ok (_s, v, T2, B2)) =>
        if eps < v then some (Except.error SolveErr.infeasible)
        else some (Except.ok
          (transform_canonical (zeroColumns (restoreObjective T2 c) aux) B2, B2))

/-! ## Concrete tableaux used for counterexamples, failing inputs and
witnesses -/

/-- A canonical tableau (it passes the entry assertions) whose only
constraint row has entering-column coefficient `10^11 > eps` but ratio
`10^-11 < eps`. -/
def exT2 : Mat := [[-1, 0, 0], [100000000000, 1, 1]]

/-- Basis for `exT2`. -/
def exB2 : List Nat := [1]

/-- A canonical tableau with two constraint rows: row 1 has entering-column
coefficient `10^11` and ratio `10^-11` (clamped to infinity by the code),
row 2 has coefficient `1` and ratio `2`. -/
def exT3 : Mat := [[-1, 0, 0, 0], [100000000000, 1, 0, 1], [1, 0, 1, 2]]

/-- Basis for `exT3`. -/
def exB3 : List Nat := [1, 2]

/-- A tableau satisfying the spec's canonical invariants whose constraint
right-hand side is exactly `0`. -/
def exT8 : Mat := [[0, 1, 0], [1, 2, 0]]

/-- Basis for `exT8`. -/
def exB8 : List Nat := [0]

/-- A tableau whose constraint rows restricted to the basic columns `[0, 1]`
form the identity. -/
def exT6 : Mat := [[3, 4, 5, 7], [1, 0, 2, 3], [0, 1, 1, 4]]

/-- A canonical tableau with one auxiliary column (index 2) for the phase-1
hand-off witness. -/
def exTP : Mat := [[-1, 0, 0, 0], [1, 1, 1, 1]]

/-! ## Basic access lemmas -/

theorem getD_map_range {α : Type} (d : α) (f : Nat → α) {n r : Nat} (h : r < n) :
    ((List.range n).map f).getD r d = f r := by
  rw [List.getD_eq_getElem?_getD, List.getElem?_map, List.getElem?_range h]
  rfl

theorem entry_matMul (A B : Mat) (cols r j : Nat) (hr : r < A.length) (hj : j < cols) :
    entry (matMul A B cols) r j =
      ∑ k ∈ Finset.range B.length, entry A r k * entry B k j := by
  unfold matMul entry
  rw [getD_map_range _ _ hr, getD_map_range _ _ hj]

theorem entry_modifyMatrix (T : Mat) (lr ec r k : Nat)
    (hr : r < nRows T) (hk : k < nRows T) :
    entry (modifyMatrix T lr ec) r k =
      if k = lr then
        (if r = lr then 1 / entry T lr ec else -(entry T r ec) / entry T lr ec)
      else if k = r then 1 else 0 := by
  unfold modifyMatrix entry
  rw [getD_map_range _ _ hr, getD_map_range _ _ hk]

theorem sum_single_slot {n lr : Nat} (hlr : lr < n) (a : ℚ) (g : Nat → ℚ) :
    ∑ k ∈ Finset.range n, (if k = lr then a else 0) * g k = a * g lr := by
  have h : ∀ k, (if k = lr then a else 0) * g k = if k = lr then a * g k else 0 := by
    intro k; split <;> simp
  rw [Finset.sum_congr rfl fun k _ => h k, Finset.sum_ite_eq']
  simp [Finset.mem_range.mpr hlr]

theorem sum_two_slots {n lr r : Nat} (hlr : lr < n) (hr : r < n) (hne : r ≠ lr)
    (a b : ℚ) (g : Nat → ℚ) :
    ∑ k ∈ Finset.range n, (if k = lr then a else if k = r then b else 0) * g k =
      a * g lr + b * g r := by
  have h : ∀ k, (if k = lr then a else if k = r then b else 0) * g k =
      (if k = lr then a * g k else 0) + (if k = r then b * g k else 0) := by
    intro k
    by_cases h1 : k = lr
    · subst h1
      have hkr : ¬ k = r := fun hc => hne hc.symm
      simp [hkr]
    · by_cases h2 : k = r <;> simp [h1, h2, hne]
  rw [Finset.sum_congr rfl fun k _ => h k, Finset.sum_add_distrib,
    Finset.sum_ite_eq', Finset.sum_ite_eq']
  simp [Finset.mem_range.mpr hlr, Finset.mem_range.mpr hr]

/-! ## C4: the elementary-matrix pivot equals the simultaneous row operation -/

/-- C4.  The pivot implemented at lines 51–55 as left-multiplication by the
elementary transformation matrix `modify` coincides, entry for entry, with
the spec's simultaneous row operation: the leaving row is rescaled by `1/p`
and every other row has its pre-pivot entering-column coefficient times the
rescaled leaving row subtracted; moreover, when the pivot entry exceeds
`eps`, the entering column of the result is a unit vector (1 at the leaving
row, 0 in every other row). -/
theorem pivot_matmul_eq_rowops (T : Mat) (lr ec : Nat) (hlr : lr < nRows T) :
    pivotTableau T lr ec = pivotRowOps T lr ec ∧
    (eps < entry T lr ec → ec < nCols T →
      entry (pivotTableau T lr ec) lr ec = 1 ∧
      ∀ r < nRows T, r ≠ lr → entry (pivotTableau T lr ec) r ec = 0) := by
  have hlen : (modifyMatrix T lr ec).length = nRows T := by
    unfold modifyMatrix; simp
  have hlr' : lr < T.length := hlr
  have key : ∀ r, r < T.length → ∀ j : Nat,
      (∑ k ∈ Finset.range T.length, entry (modifyMatrix T lr ec) r k * entry T k j) =
        if r = lr then entry T lr j / entry T lr ec
        else entry T r j - entry T r ec * (entry T lr j / entry T lr ec) := by
    intro r hr' j
    have mid : (∑ k ∈ Finset.range T.length, entry (modifyMatrix T lr ec) r k * entry T k j)
        = ∑ k ∈ Finset.range T.length,
            (if k = lr then
              (if r = lr then 1 / entry T lr ec else -(entry T r ec) / entry T lr ec)
             else if k = r then 1 else 0) * entry T k j := by
      apply Finset.sum_congr rfl
      intro k hk
      rw [entry_modifyMatrix T lr ec r k hr' (Finset.mem_range.mp hk)]
    rw [mid]
    by_cases hcase : r = lr
    · have hcol : ∀ k ∈ Finset.range T.length,
          (if k = lr then
            (if r = lr then (1 : ℚ) / entry T lr ec else -(entry T r ec) / entry T lr ec)
           else if k = r then 1 else 0) * entry T k j
          = (if k = lr then 1 / entry T lr ec else 0) * entry T k j := by
        intro k _
        by_cases hk : k = lr <;> simp [hk, hcase]
      rw [Finset.sum_congr rfl hcol, sum_single_slot hlr', if_pos hcase]
      ring
    · have hfix : ∀ k ∈ Finset.range T.length,
          (if k = lr then
            (if r = lr then (1 : ℚ) / entry T lr ec else -(entry T r ec) / entry T lr ec)
           else if k = r then 1 else 0) * entry T k j
          = (if k = lr then -(entry T r ec) / entry T lr ec
             else if k = r then 1 else 0) * entry T k j := by
        intro k _
        rw [if_neg hcase]
      rw [Finset.sum_congr rfl hfix, sum_two_slots hlr' hr' hcase, if_neg hcase]
      ring
  have epiv : ∀ r, r < nRows T → ∀ j, j < nCols T →
      entry (pivotTableau T lr ec) r j
        = ∑ k ∈ Finset.range T.length, entry (modifyMatrix T lr ec) r k * entry T k j := by
    intro r hr j hj
    unfold pivotTableau
    exact entry_matMul _ _ _ _ _ (hlen.symm ▸ hr) hj
  refine ⟨?_, ?_⟩
  · unfold pivotTableau matMul pivotRowOps
    rw [hlen]
    apply List.map_congr_left
    intro r hrmem
    have hr' : r < T.length := List.mem_range.mp hrmem
    by_cases hcase : r = lr
    · rw [if_pos hcase]
      apply List.map_congr_left
      intro j _
      rw [key r hr' j, if_pos hcase]
    · rw [if_neg hcase]
      apply List.map_congr_left
      intro j _
      rw [key r hr' j, if_neg hcase]
  · intro hp hec
    have hpne : entry T lr ec ≠ 0 := by
      have heps : (0 : ℚ) < eps := by norm_num [eps]
      exact ne_of_gt (lt_trans heps hp)
    constructor
    · rw [epiv lr hlr ec hec, key lr hlr' ec, if_pos rfl]
      field_simp
    · intro r hr hne
      have hr' : r < T.length := hr
      rw [epiv r hr ec hec, key r hr' ec, if_neg hne]
      field_simp

/-- Witness for C4 at the concrete tableau `exT3`, leaving row 2, entering
column 0. -/
theorem pivot_matmul_eq_rowops_witness :
    pivotTableau exT3 2 0 = pivotRowOps exT3 2 0 ∧
    (eps < entry exT3 2 0 → 0 < nCols exT3 →
      entry (pivotTableau exT3 2 0) 2 0 = 1 ∧
      ∀ r < nRows exT3, r ≠ 2 → entry (pivotTableau exT3 2 0) r 0 = 0) :=
  pivot_matmul_eq_rowops exT3 2 0 (by decide)

/-! ## Counterexamples and failing inputs -/

/-- C2 counterexample.  On the canonical tableau `exT2` the entering column
is 0 and its (only) constraint-row coefficient `10^11` exceeds `eps`, yet
the engine raises Unbounded instead of pivoting: the ratio
`1 / 10^11 = 10^-11` is below `eps`, so `bounds[bounds < 1e-10] = inf`
erases the row from the ratio test. -/
theorem step_unbounded_despite_positive_coef :
    checkCanonical exT2 exB2 = true ∧
    firstEnter exT2 = some 0 ∧
    eps < entry exT2 1 0 ∧
    simplexStep exT2 exB2 = StepOut.unbounded := by decide

/-- C3 counterexample.  On the canonical tableau `exT3` both constraint rows
have entering-column coefficient above `eps`, and row 1 attains the strictly
smaller ratio (`10^-11 < 2`); the claimed rule would make row 1 leave
(replacing basis slot 0), but the code clamps row 1's ratio to infinity and
pivots on row 2, replacing basis slot 1. -/
theorem step_leaving_row_not_min_ratio :
    checkCanonical exT3 exB3 = true ∧
    firstEnter exT3 = some 0 ∧
    eps < entry exT3 1 0 ∧ eps < entry exT3 2 0 ∧
    entry exT3 1 3 / entry exT3 1 0 < entry exT3 2 3 / entry exT3 2 0 ∧
    simplexStep exT3 exB3 = StepOut.next (pivotTableau exT3 2 0) [1, 0] := by decide

/-- C5 failing input.  Starting from the canonical tableau `exT3` (it passes
every entry assertion), the very first pivot drives constraint row 1's
right-hand side to `1 - 2·10^11`, far below `-eps`: the feasibility
invariant the spec states for every pivot is violated. -/
theorem pivot_breaks_feasibility :
    checkCanonical exT3 exB3 = true ∧
    simplexStep exT3 exB3 = StepOut.next (pivotTableau exT3 2 0) [1, 0] ∧
    entry (pivotTableau exT3 2 0) 1 3 < -eps ∧
    entry (pivotTableau exT3 2 0) 1 3 = 1 - 200000000000 := by decide

/-- C8 counterexample.  `exT8` satisfies the spec's canonical invariants
(zero reduced cost at the basic column, right-hand side `0 ≥ 0`, identity
basic sub-matrix), yet `solve_canonical_LP` rejects it with InvalidInput
because the entry assertion demands right-hand sides strictly above
`1e-10`. -/
theorem zero_rhs_rejected :
    entry exT8 1 2 = 0 ∧
    |entry exT8 0 0| < eps ∧
    entry exT8 1 0 = 1 ∧
    exB8.length = nRows exT8 - 1 ∧
    checkCanonical exT8 exB8 = false ∧
    solve_canonical_LP 0 exT8 exB8 = some (Except.error SolveErr.invalidInput) := by
  decide

/-! ## transform_canonical: frame and correctness -/

theorem getD_set_zero_ne (T : Mat) (v : List ℚ) (r : Nat) (hr : 1 ≤ r) :
    (T.set 0 v).getD r [] = T.getD r [] := by
  rw [List.getD_eq_getElem?_getD, List.getD_eq_getElem?_getD,
    List.getElem?_set_ne (by omega : 0 ≠ r)]

theorem getD_mem_of_lt {α : Type} (l : List α) (d : α) {i : Nat} (h : i < l.length) :
    l.getD i d ∈ l := by
  rw [List.getD_eq_getElem?_getD, List.getElem?_eq_getElem h]
  exact List.getElem_mem h

/-- Row 0 of `transform_canonical`, entry by entry. -/
theorem entry_transform_row0 (T : Mat) (bases : List Nat) (j : Nat) :
    entry (transform_canonical T bases) 0 j =
      if j < (T.getD 0 []).length then
        entry T 0 j - ∑ r ∈ Finset.range bases.length,
          entry T 0 (bases.getD r 0) * entry T (r + 1) j
      else 0 := by
  unfold transform_canonical
  cases T with
  | nil => simp [entry]
  | cons h t =>
      show entry (((List.range ((h :: t).getD 0 []).length).map _ :: t : Mat)) 0 j = _
      unfold entry
      by_cases hj : j < ((h :: t).getD 0 []).length
      · rw [if_pos hj]
        have : ((h :: t : Mat).getD 0 []) = h := rfl
        rw [this] at hj ⊢
        rw [List.getD_cons_zero, getD_map_range _ _ hj]
      · rw [if_neg hj]
        rw [List.getD_cons_zero]
        apply List.getD_eq_default
        simpa using Nat.le_of_not_lt hj

/-- C10.  `transform_canonical` mutates only row 0: every constraint row
(rows `1..m`, right-hand sides included) and the basis array are unchanged
by the call. -/
theorem transform_mutates_only_row0 (T : Mat) (bases : List Nat) :
    (∀ r, 1 ≤ r → ((transform_canonical_call T bases).1).getD r [] = T.getD r []) ∧
    (transform_canonical_call T bases).2 = bases := by
  constructor
  · intro r hr
    unfold transform_canonical_call transform_canonical
    exact getD_set_zero_ne _ _ _ hr
  · rfl

/-- Witness for C10 on the concrete tableau `exT6`. -/
theorem transform_mutates_only_row0_witness :
    ((transform_canonical_call exT6 [0, 1]).1).getD 1 [] = exT6.getD 1 [] ∧
    ((transform_canonical_call exT6 [0, 1]).1).getD 2 [] = exT6.getD 2 [] ∧
    (transform_canonical_call exT6 [0, 1]).2 = [0, 1] :=
  ⟨(transform_mutates_only_row0 exT6 [0, 1]).1 1 (by decide),
   (transform_mutates_only_row0 exT6 [0, 1]).1 2 (by decide),
   (transform_mutates_only_row0 exT6 [0, 1]).2⟩

/-- C6.  On a tableau whose constraint rows restricted to the basic columns
form the identity, `transform_canonical` subtracts from the objective row
the weighted sum of the constraint rows (weights = the pre-write objective
coefficients at the basic columns), and afterwards the objective-row entry
at every basic column is zero. -/
theorem transform_canonical_spec (T : Mat) (bases : List Nat)
    (hrange : ∀ b ∈ bases, b < (T.getD 0 []).length)
    (hid : ∀ r < bases.length, ∀ jj < bases.length,
      entry T (r + 1) (bases.getD jj 0) = if r = jj then 1 else 0) :
    (∀ j < (T.getD 0 []).length,
      entry (transform_canonical T bases) 0 j =
        entry T 0 j - ∑ r ∈ Finset.range bases.length,
          entry T 0 (bases.getD r 0) * entry T (r + 1) j) ∧
    (∀ jj < bases.length,
      entry (transform_canonical T bases) 0 (bases.getD jj 0) = 0) := by
  constructor
  · intro j hj
    rw [entry_transform_row0, if_pos hj]
  · intro jj hjj
    have hb : bases.getD jj 0 ∈ bases := getD_mem_of_lt bases 0 hjj
    rw [entry_transform_row0, if_pos (hrange _ hb)]
    have h1 : ∀ r ∈ Finset.range bases.length,
        entry T 0 (bases.getD r 0) * entry T (r + 1) (bases.getD jj 0)
        = if r = jj then entry T 0 (bases.getD r 0) else 0 := by
      intro r hrmem
      rw [hid r (Finset.mem_range.mp hrmem) jj hjj]
      split <;> simp
    rw [Finset.sum_congr rfl h1, Finset.sum_ite_eq']
    simp [Finset.mem_range.mpr hjj]

/-- Witness for C6: on `exT6` with basis `[0, 1]` the objective-row entries
at both basic columns are zeroed. -/
theorem transform_canonical_spec_witness :
    entry (transform_canonical exT6 [0, 1]) 0 0 = 0 ∧
    entry (transform_canonical exT6 [0, 1]) 0 1 = 0 :=
  ⟨(transform_canonical_spec exT6 [0, 1] (by decide) (by decide)).2 0 (by decide),
   (transform_canonical_spec exT6 [0, 1] (by decide) (by decide)).2 1 (by decide)⟩

/-! ## The ratio test and the shape of one loop iteration -/

theorem boundOf_eq_top_iff (coef rhs : ℚ) :
    boundOf coef rhs = ⊤ ↔ ¬ (eps < coef ∧ eps ≤ rhs / coef) := by
  unfold boundOf
  by_cases h1 : eps < coef
  · simp only [if_pos h1]
    by_cases h2 : rhs / coef < eps
    · simp [if_pos h2, h1, not_le.mpr h2]
    · simp [if_neg h2, h1, not_lt.mp h2]
  · simp only [if_neg h1]
    rw [if_pos (by norm_num [eps] : (0 : ℚ) < eps)]
    simp [h1]

theorem boundOf_ne_top_val (coef rhs : ℚ) (h : boundOf coef rhs ≠ ⊤) :
    boundOf coef rhs = ((rhs / coef : ℚ) : WithTop ℚ) := by
  unfold boundOf at h ⊢
  by_cases h1 : eps < coef
  · simp only [if_pos h1] at h ⊢
    by_cases h2 : rhs / coef < eps
    · exact absurd (if_pos h2) h
    · exact if_neg h2
  · exfalso
    apply h
    simp only [if_neg h1]
    exact if_pos (by norm_num [eps] : (0 : ℚ) < eps)

theorem simplexStep_none (T : Mat) (bases : List Nat) (he : firstEnter T = none) :
    simplexStep T bases =
      StepOut.optimal (assignSol (nCols T - 1) bases (rhsOf T))
        (-(entry T 0 (nCols T - 1))) := by
  unfold simplexStep
  rw [he]

theorem simplexStep_some (T : Mat) (bases : List Nat) (ie : Nat)
    (he : firstEnter T = some ie) :
    simplexStep T bases =
      if (boundsList T ie).all (fun ob => decide (ob = ⊤)) then StepOut.unbounded
      else
        StepOut.next (pivotTableau T (argminIdx (boundsList T ie) + 1) ie)
          (bases.set (argminIdx (boundsList T ie)) ie) := by
  unfold simplexStep
  rw [he]

theorem getD_boundsList (T : Mat) (ie r : Nat) (hr : r < nRows T - 1) :
    (boundsList T ie).getD r ⊤ =
      boundOf (entry T (r + 1) ie) (entry T (r + 1) (nCols T - 1)) := by
  unfold boundsList
  exact getD_map_range _ _ hr

/-- C2 amended.  Once an entering column `ie` has been selected, the engine
raises Unbounded if and only if no constraint row has both an
entering-column coefficient exceeding `eps` and a ratio (RHS divided by
that coefficient) of at least `eps`: rows whose ratio falls below `eps` are
clamped to infinity and treated as ineligible even though their coefficient
exceeds `eps`. -/
theorem step_unbounded_iff (T : Mat) (bases : List Nat) (ie : Nat)
    (he : firstEnter T = some ie) :
    (simplexStep T bases = StepOut.unbounded ↔
      ∀ r < nRows T - 1,
        ¬ (eps < entry T (r + 1) ie ∧
           eps ≤ entry T (r + 1) (nCols T - 1) / entry T (r + 1) ie)) := by
  rw [simplexStep_some T bases ie he]
  have hiff : (((boundsList T ie).all fun ob => decide (ob = ⊤)) = true) ↔
      (∀ r < nRows T - 1,
        ¬ (eps < entry T (r + 1) ie ∧
           eps ≤ entry T (r + 1) (nCols T - 1) / entry T (r + 1) ie)) := by
    rw [List.all_eq_true]
    constructor
    · intro h r hr
      have hmem : boundOf (entry T (r + 1) ie) (entry T (r + 1) (nCols T - 1))
          ∈ boundsList T ie := by
        unfold boundsList
        exact List.mem_map.mpr ⟨r, List.mem_range.mpr hr, rfl⟩
      have htop := h _ hmem
      rw [decide_eq_true_eq] at htop
      exact (boundOf_eq_top_iff _ _).mp htop
    · intro h ob hmem
      unfold boundsList at hmem
      rcases List.mem_map.mp hmem with ⟨r, hrmem, rfl⟩
      rw [decide_eq_true_eq]
      exact (boundOf_eq_top_iff _ _).mpr (h r (List.mem_range.mp hrmem))
  by_cases hall : ((boundsList T ie).all fun ob => decide (ob = ⊤)) = true
  · rw [if_pos hall]
    exact ⟨fun _ => hiff.mp hall, fun _ => rfl⟩
  · rw [if_neg hall]
    constructor
    · intro h
      exact absurd h (by simp)
    · intro hforall
      exact absurd (hiff.mpr hforall) hall

/-- Witness for C2 (amended) at the concrete tableau `exT2`. -/
theorem step_unbounded_iff_witness :
    simplexStep exT2 exB2 = StepOut.unbounded ↔
      ∀ r < nRows exT2 - 1,
        ¬ (eps < entry exT2 (r + 1) 0 ∧
           eps ≤ entry exT2 (r + 1) (nCols exT2 - 1) / entry exT2 (r + 1) 0) :=
  step_unbounded_iff exT2 exB2 0 (by decide)

/-! ## argmin over the bounds vector -/

theorem foldl_min_le_init (l : List (WithTop ℚ)) (a : WithTop ℚ) :
    l.foldl min a ≤ a := by
  induction l generalizing a with
  | nil => exact le_refl a
  | cons x xs ih => exact le_trans (ih (min a x)) (min_le_left a x)

theorem foldl_min_le_mem {l : List (WithTop ℚ)} {x : WithTop ℚ} (h : x ∈ l)
    (a : WithTop ℚ) : l.foldl min a ≤ x := by
  induction l generalizing a with
  | nil => cases h
  | cons y ys ih =>
      cases h with
      | head => exact le_trans (foldl_min_le_init ys (min a x)) (min_le_right a x)
      | tail _ hmem => exact ih hmem (min a y)

theorem foldl_min_eq_init_or_mem (l : List (WithTop ℚ)) (a : WithTop ℚ) :
    l.foldl min a = a ∨ l.foldl min a ∈ l := by
  induction l generalizing a with
  | nil => exact Or.inl rfl
  | cons x xs ih =>
      rcases ih (min a x) with h | h
      · rcases min_cases a x with ⟨hm, _⟩ | ⟨hm, _⟩
        · rw [List.foldl_cons, h, hm]
          exact Or.inl rfl
        · rw [List.foldl_cons, h, hm]
          exact Or.inr (List.mem_cons_self x xs)
      · rw [List.foldl_cons]
        exact Or.inr (List.mem_cons_of_mem x h)

theorem listMin_le_mem {bs : List (WithTop ℚ)} {x : WithTop ℚ} (h : x ∈ bs) :
    listMin bs ≤ x :=
  foldl_min_le_mem h ⊤

theorem listMin_mem {bs : List (WithTop ℚ)}
    (h : ¬ ((bs.all fun ob => decide (ob = ⊤)) = true)) : listMin bs ∈ bs := by
  rcases foldl_min_eq_init_or_mem bs ⊤ with h0 | h0
  · exfalso
    apply h
    rw [List.all_eq_true]
    intro ob hmem
    rw [decide_eq_true_eq]
    have hle := foldl_min_le_mem hmem (⊤ : WithTop ℚ)
    rw [h0] at hle
    exact top_le_iff.mp hle
  · exact h0

theorem listMin_ne_top {bs : List (WithTop ℚ)}
    (h : ¬ ((bs.all fun ob => decide (ob = ⊤)) = true)) : listMin bs ≠ ⊤ := by
  have hex : ∃ x ∈ bs, ¬ x = ⊤ := by
    by_contra hc
    push_neg at hc
    apply h
    rw [List.all_eq_true]
    intro ob hmem
    rw [decide_eq_true_eq]
    exact hc ob hmem
  rcases hex with ⟨x, hmem, hxne⟩
  intro htop
  have hle := listMin_le_mem hmem
  rw [htop] at hle
  exact hxne (top_le_iff.mp hle)

theorem argminIdx_lt_length {bs : List (WithTop ℚ)}
    (h : ¬ ((bs.all fun ob => decide (ob = ⊤)) = true)) :
    argminIdx bs < bs.length := by
  unfold argminIdx
  exact List.findIdx_lt_length_of_exists
    ⟨listMin bs, listMin_mem h, by rw [decide_eq_true_eq]⟩

theorem argminIdx_val {bs : List (WithTop ℚ)}
    (h : ¬ ((bs.all fun ob => decide (ob = ⊤)) = true)) :
    bs.getD (argminIdx bs) ⊤ = listMin bs := by
  have hlt : argminIdx bs < bs.length := argminIdx_lt_length h
  rw [List.getD_eq_getElem?_getD, List.getElem?_eq_getElem hlt]
  have := @List.findIdx_getElem _ (fun ob => decide (ob = listMin bs)) bs hlt
  rw [decide_eq_true_eq] at this
  exact this

theorem argminIdx_first {bs : List (WithTop ℚ)} {r : Nat}
    (hr : r < argminIdx bs) (hlen : r < bs.length) :
    bs.getD r ⊤ ≠ listMin bs := by
  have := @List.not_of_lt_findIdx _ (fun ob => decide (ob = listMin bs)) bs r hr
  rw [List.getD_eq_getElem?_getD, List.getElem?_eq_getElem hlen]
  simpa using this

/-- C3 amended.  In every pivot, the leaving row is the first row attaining
the minimum of the bounds vector, where a row's bound is its ratio
(RHS / entering-column coefficient) when the coefficient exceeds `eps` and
the ratio is at least `eps`, and infinity otherwise — so rows with ratio
below `eps` are excluded from the ratio test even when their coefficient
exceeds `eps`.  The basis is mutated exactly once, the entering column
replacing the leaving row's entry. -/
theorem step_pivot_leaving_row (T : Mat) (bases : List Nat) (ie : Nat)
    (T2 : Mat) (B2 : List Nat)
    (he : firstEnter T = some ie)
    (hn : simplexStep T bases = StepOut.next T2 B2) :
    B2 = bases.set (argminIdx (boundsList T ie)) ie ∧
    T2 = pivotTableau T (argminIdx (boundsList T ie) + 1) ie ∧
    argminIdx (boundsList T ie) < (boundsList T ie).length ∧
    (boundsList T ie).getD (argminIdx (boundsList T ie)) ⊤ ≠ ⊤ ∧
    (∀ r < (boundsList T ie).length,
      (boundsList T ie).getD (argminIdx (boundsList T ie)) ⊤
        ≤ (boundsList T ie).getD r ⊤) ∧
    (∀ r < argminIdx (boundsList T ie),
      (boundsList T ie).getD (argminIdx (boundsList T ie)) ⊤
        < (boundsList T ie).getD r ⊤) ∧
    (∀ k, k ≠ argminIdx (boundsList T ie) → B2.getD k 0 = bases.getD k 0) ∧
    (∀ r < nRows T - 1,
      ((boundsList T ie).getD r ⊤ ≠ ⊤ ↔
        (eps < entry T (r + 1) ie ∧
         eps ≤ entry T (r + 1) (nCols T - 1) / entry T (r + 1) ie)) ∧
      ((boundsList T ie).getD r ⊤ ≠ ⊤ →
        (boundsList T ie).getD r ⊤ =
          ((entry T (r + 1) (nCols T - 1) / entry T (r + 1) ie : ℚ) : WithTop ℚ))) := by
  rw [simplexStep_some T bases ie he] at hn
  by_cases hall : ((boundsList T ie).all fun ob => decide (ob = ⊤)) = true
  · rw [if_pos hall] at hn
    exact absurd hn (by simp)
  · rw [if_neg hall] at hn
    injection hn with hT hB
    have hlt := argminIdx_lt_length hall
    have hval := argminIdx_val hall
    refine ⟨hB.symm, hT.symm, hlt, ?_, ?_, ?_, ?_, ?_⟩
    · rw [hval]
      exact listMin_ne_top hall
    · intro r hr
      rw [hval]
      apply listMin_le_mem
      rw [List.getD_eq_getElem?_getD, List.getElem?_eq_getElem hr]
      exact List.getElem_mem hr
    · intro r hr
      have hrlen : r < (boundsList T ie).length := lt_trans hr hlt
      have hne := argminIdx_first hr hrlen
      rw [hval]
      refine lt_of_le_of_ne ?_ ?_
      · apply listMin_le_mem
        rw [List.getD_eq_getElem?_getD, List.getElem?_eq_getElem hrlen]
        exact List.getElem_mem hrlen
      · exact fun hc => hne hc.symm
    · intro k hk
      rw [← hB]
      rw [List.getD_eq_getElem?_getD, List.getD_eq_getElem?_getD,
        List.getElem?_set_ne (fun hc => hk hc.symm)]
    · intro r hr
      rw [getD_boundsList T ie r hr]
      constructor
      · constructor
        · intro hne
          by_contra hc
          exact hne ((boundOf_eq_top_iff _ _).mpr hc)
        · intro hc htop
          exact ((boundOf_eq_top_iff _ _).mp htop) hc
      · intro hne
        exact boundOf_ne_top_val _ _ hne

/-- Witness for C3 (amended) at the concrete tableau `exT3`: the chosen
basis update and the finiteness of the chosen bound. -/
theorem step_pivot_leaving_row_witness :
    [1, 0] = exB3.set (argminIdx (boundsList exT3 0)) 0 ∧
    (boundsList exT3 0).getD (argminIdx (boundsList exT3 0)) ⊤ ≠ ⊤ :=
  ⟨(step_pivot_leaving_row exT3 exB3 0 (pivotTableau exT3 2 0) [1, 0]
      (by decide) (by decide)).1,
   (step_pivot_leaving_row exT3 exB3 0 (pivotTableau exT3 2 0) [1, 0]
      (by decide) (by decide)).2.2.2.1⟩

/-! ## The solution vector and optimal termination -/

theorem foldl_set_length (l : List (Nat × ℚ)) (init : List ℚ) :
    (l.foldl (fun s p => s.set p.1 p.2) init).length = init.length := by
  induction l generalizing init with
  | nil => rfl
  | cons x xs ih => rw [List.foldl_cons, ih, List.length_set]

theorem foldl_set_getD_not_mem (l : List (Nat × ℚ)) (init : List ℚ) (j : Nat)
    (h : ∀ p ∈ l, p.1 ≠ j) :
    (l.foldl (fun s p => s.set p.1 p.2) init).getD j 0 = init.getD j 0 := by
  induction l generalizing init with
  | nil => rfl
  | cons x xs ih =>
      rw [List.foldl_cons, ih _ (fun p hp => h p (List.mem_cons_of_mem _ hp))]
      rw [List.getD_eq_getElem?_getD, List.getD_eq_getElem?_getD,
        List.getElem?_set_ne (h x (List.mem_cons_self x xs))]

theorem foldl_set_getD_mem :
    ∀ (l : List (Nat × ℚ)) (init : List ℚ) (j : Nat) (v : ℚ),
      (l.map Prod.fst).Nodup → (j, v) ∈ l → j < init.length →
      (l.foldl (fun s p => s.set p.1 p.2) init).getD j 0 = v := by
  intro l
  induction l with
  | nil =>
      intro init j v _ hmem _
      cases hmem
  | cons x xs ih =>
      intro init j v hnd hmem hj
      rw [List.map_cons, List.nodup_cons] at hnd
      rw [List.foldl_cons]
      rcases List.mem_cons.mp hmem with heq | htail
      · have hxs : ∀ p ∈ xs, p.1 ≠ j := by
          intro p hp hpj
          apply hnd.1
          have h1 : p.1 ∈ xs.map Prod.fst := List.mem_map_of_mem Prod.fst hp
          rw [hpj] at h1
          rw [← heq]
          exact h1
        rw [← heq]
        rw [foldl_set_getD_not_mem xs _ j hxs]
        rw [List.getD_eq_getElem?_getD, List.getElem?_set_self hj]
        rfl
      · have hx1 : x.1 ≠ j := by
          intro hc
          apply hnd.1
          rw [hc]
          exact List.mem_map_of_mem Prod.fst htail
        exact ih _ j v hnd.2 htail (by rw [List.length_set]; exact hj)

/-- C1.  One loop iteration returns (rather than pivoting or failing)
exactly when no reduced cost among the first `n = columns - 1` columns is
below `-eps`; the returned solution assigns each basic column its row's
right-hand side and `0` to every other column, the returned value is the
negative of the objective row's right-hand-side entry, and
`solve_canonical_LP` then surfaces exactly this pair. -/
theorem step_optimal_spec (T : Mat) (bases : List Nat)
    (hlen : bases.length = nRows T - 1)
    (hnd : bases.Nodup)
    (hrange : ∀ b ∈ bases, b < nCols T - 1) :
    ((∃ s v, simplexStep T bases = StepOut.optimal s v) ↔
      ∀ j < nCols T - 1, -eps ≤ entry T 0 j) ∧
    (∀ s v, simplexStep T bases = StepOut.optimal s v →
      v = -(entry T 0 (nCols T - 1)) ∧
      s.length = nCols T - 1 ∧
      (∀ r < bases.length,
        s.getD (bases.getD r 0) 0 = entry T (r + 1) (nCols T - 1)) ∧
      (∀ j < nCols T - 1, j ∉ bases → s.getD j 0 = 0)) ∧
    (∀ s v fuel, simplexStep T bases = StepOut.optimal s v →
      checkCanonical T bases = true →
      solve_canonical_LP (fuel + 1) T bases = some (Except.ok (s, v, T, bases))) := by
  have hrhslen : (rhsOf T).length = nRows T - 1 := by
    unfold rhsOf
    simp
  have hiffFE : firstEnter T = none ↔ ∀ j < nCols T - 1, -eps ≤ entry T 0 j := by
    unfold firstEnter
    rw [List.find?_eq_none]
    constructor
    · intro h j hj
      have := h j (List.mem_range.mpr hj)
      rw [decide_eq_true_eq] at this
      exact not_lt.mp this
    · intro h j hjmem
      rw [decide_eq_true_eq]
      exact not_lt.mpr (h j (List.mem_range.mp hjmem))
  refine ⟨⟨?_, ?_⟩, ?_, ?_⟩
  · rintro ⟨s, v, hstep⟩
    cases hfe : firstEnter T with
    | none => exact hiffFE.mp hfe
    | some ie =>
        rw [simplexStep_some T bases ie hfe] at hstep
        by_cases hall : ((boundsList T ie).all fun ob => decide (ob = ⊤)) = true
        · rw [if_pos hall] at hstep
          exact absurd hstep (by simp)
        · rw [if_neg hall] at hstep
          exact absurd hstep (by simp)
  · intro hopt
    rw [simplexStep_none T bases (hiffFE.mpr hopt)]
    exact ⟨_, _, rfl⟩
  · intro s v hstep
    cases hfe : firstEnter T with
    | some ie =>
        rw [simplexStep_some T bases ie hfe] at hstep
        by_cases hall : ((boundsList T ie).all fun ob => decide (ob = ⊤)) = true
        · rw [if_pos hall] at hstep
          exact absurd hstep (by simp)
        · rw [if_neg hall] at hstep
          exact absurd hstep (by simp)
    | none =>
        rw [simplexStep_none T bases hfe] at hstep
        injection hstep with hs hv
        refine ⟨hv.symm, ?_, ?_, ?_⟩
        · rw [← hs]
          unfold assignSol
          rw [foldl_set_length, List.length_replicate]
        · intro r hr
          rw [← hs]
          unfold assignSol
          apply foldl_set_getD_mem
          · rw [List.map_fst_zip]
            · exact hnd
            · rw [hlen, hrhslen]
          · have hrz : r < (bases.zip (rhsOf T)).length := by
              rw [List.length_zip, hrhslen, hlen]
              simpa using (hlen ▸ hr)
            have hrb : r < bases.length := hr
            have hrr : r < (rhsOf T).length := by rw [hrhslen, ← hlen]; exact hr
            have hget : (bases.zip (rhsOf T)).get ⟨r, hrz⟩
                = (bases.getD r 0, entry T (r + 1) (nCols T - 1)) := by
              rw [List.get_eq_getElem, List.getElem_zip]
              congr 1
              · rw [List.getD_eq_getElem?_getD, List.getElem?_eq_getElem hrb]
                rfl
              · unfold rhsOf
                rw [List.getElem_map, List.getElem_range]
            rw [← hget]
            exact List.get_mem _ _ _
          · rw [List.length_replicate]
            exact hrange _ (getD_mem_of_lt bases 0 hr)
        · intro j hj hnotmem
          rw [← hs]
          unfold assignSol
          rw [foldl_set_getD_not_mem]
          · rw [List.getD_eq_getElem?_getD, List.getElem?_replicate]
            split <;> rfl
          · intro p hp hpj
            apply hnotmem
            rw [← hpj]
            have hmemfst : p.1 ∈ (bases.zip (rhsOf T)).map Prod.fst :=
              List.mem_map_of_mem Prod.fst hp
            rw [List.map_fst_zip] at hmemfst
            · exact hmemfst
            · rw [hlen, hrhslen]
  · intro s v fuel hstep hcheck
    unfold solve_canonical_LP
    rw [if_pos hcheck]
    show solveFuel (fuel + 1) T bases = _
    simp only [solveFuel]
    rw [hstep]

/-- Witness for C1 at the concrete tableau `exT8` (all reduced costs are
non-negative, so the step is optimal). -/
theorem step_optimal_spec_witness :
    ((∃ s v, simplexStep exT8 exB8 = StepOut.optimal s v) ↔
      ∀ j < nCols exT8 - 1, -eps ≤ entry exT8 0 j) ∧
    (∀ s v, simplexStep exT8 exB8 = StepOut.optimal s v →
      v = -(entry exT8 0 (nCols exT8 - 1)) ∧
      s.length = nCols exT8 - 1 ∧
      (∀ r < exB8.length,
        s.getD (exB8.getD r 0) 0 = entry exT8 (r + 1) (nCols exT8 - 1)) ∧
      (∀ j < nCols exT8 - 1, j ∉ exB8 → s.getD j 0 = 0)) ∧
    (∀ s v fuel, simplexStep exT8 exB8 = StepOut.optimal s v →
      checkCanonical exT8 exB8 = true →
      solve_canonical_LP (fuel + 1) exT8 exB8 = some (Except.ok (s, v, exT8, exB8))) :=
  step_optimal_spec exT8 exB8 (by decide) (by decide) (by decide)

/-! ## Determinism -/

/-- C9.  The pivot engine is deterministic: two runs (same fuel) on
element-wise equal, independently owned copies of the tableau and basis
return identical results — solution vector, objective value, final tableau
and final basis alike. -/
theorem solve_deterministic (fuel : Nat) (T1 T2 : Mat) (B1 B2 : List Nat)
    (hTlen : T1.length = T2.length)
    (hrowlen : ∀ i, (T1.getD i []).length = (T2.getD i []).length)
    (hentries : ∀ i j, entry T1 i j = entry T2 i j)
    (hBlen : B1.length = B2.length)
    (hBent : ∀ i, B1.getD i 0 = B2.getD i 0) :
    solve_canonical_LP fuel T1 B1 = solve_canonical_LP fuel T2 B2 := by
  have hT : T1 = T2 := by
    apply List.ext_getElem hTlen
    intro i h1 h2
    apply List.ext_getElem
    · have hrl := hrowlen i
      rw [List.getD_eq_getElem?_getD, List.getElem?_eq_getElem h1] at hrl
      rw [List.getD_eq_getElem?_getD, List.getElem?_eq_getElem h2] at hrl
      simpa using hrl
    · intro j hj1 hj2
      have hent := hentries i j
      unfold entry at hent
      rw [List.getD_eq_getElem?_getD (l := T1), List.getElem?_eq_getElem h1] at hent
      rw [List.getD_eq_getElem?_getD (l := T2), List.getElem?_eq_getElem h2] at hent
      simp only [Option.getD_some] at hent
      rw [List.getD_eq_getElem?_getD, List.getElem?_eq_getElem hj1] at hent
      rw [List.getD_eq_getElem?_getD, List.getElem?_eq_getElem hj2] at hent
      simpa using hent
  have hB : B1 = B2 := by
    apply List.ext_getElem hBlen
    intro i h1 h2
    have hbe := hBent i
    rw [List.getD_eq_getElem?_getD, List.getElem?_eq_getElem h1] at hbe
    rw [List.getD_eq_getElem?_getD, List.getElem?_eq_getElem h2] at hbe
    simpa using hbe
  rw [hT, hB]

/-- Witness for C9: two copies of the tableau `exT2` and basis `exB2`. -/
theorem solve_deterministic_witness :
    solve_canonical_LP 3 exT2 exB2 = solve_canonical_LP 3 exT2 exB2 :=
  solve_deterministic 3 exT2 exT2 exB2 exB2 rfl (fun _ => rfl) (fun _ _ => rfl)
    rfl (fun _ => rfl)

/-! ## Phase-1 hand-off -/

theorem entry_zeroColumns (X : Mat) (aux : List Nat) (r j : Nat) (hj : j ∈ aux) :
    entry (zeroColumns X aux) r j = 0 := by
  have hc : aux.contains j = true := List.elem_iff.mpr hj
  unfold zeroColumns entry
  rcases Nat.lt_or_ge r X.length with hr | hr
  · rw [List.getD_eq_getElem?_getD (l := X.map _), List.getElem?_map,
      List.getElem?_eq_getElem hr]
    simp only [Option.map_some', Option.getD_some]
    by_cases hjlen : j < (X[r]).length
    · rw [getD_map_range _ _ hjlen, if_pos hc]
    · apply List.getD_eq_default
      simpa using Nat.le_of_not_lt hjlen
  · rw [List.getD_eq_getElem?_getD (l := X.map _),
      List.getElem?_eq_none (by simpa using hr)]
    rfl

theorem entry_transform_row_ne (X : Mat) (B : List Nat) (r j : Nat) (hr : 1 ≤ r) :
    entry (transform_canonical X B) r j = entry X r j := by
  unfold entry transform_canonical
  rw [getD_set_zero_ne _ _ _ hr]

theorem entry_transform_zero_col (X : Mat) (B : List Nat) (j : Nat)
    (h0 : entry X 0 j = 0) (hc : ∀ r : Nat, entry X (r + 1) j = 0) :
    entry (transform_canonical X B) 0 j = 0 := by
  rw [entry_transform_row0]
  split
  · rw [h0]
    have hz : ∀ r ∈ Finset.range B.length,
        entry X 0 (B.getD r 0) * entry X (r + 1) j = 0 := by
      intro r _
      rw [hc r]
      ring
    rw [Finset.sum_congr rfl hz, Finset.sum_const_zero]
    ring
  · rfl

/-- C7.  When auxiliary columns are present and the phase-1 solve completes
with optimal value `v`, `solve_LP` fails with Infeasible exactly when
`v > eps`; otherwise the tableau handed to phase 2 is the phase-1 result
with the saved true objective coefficients restored, every auxiliary-column
entry forced to 0 in every row, and the objective row re-canonicalised by
`transform_canonical` — in particular every auxiliary column of the phase-2
input is identically zero, so no auxiliary column can re-enter the basis. -/
theorem solve_LP_phase1_spec (fuel : Nat) (T : Mat) (bases aux : List Nat)
    (haux : aux ≠ [])
    (s : List ℚ) (v : ℚ) (T2 : Mat) (B2 : List Nat)
    (hrun : solve_canonical_LP fuel
        (transform_canonical (setPhase1Objective T aux) bases) bases
      = some (Except.ok (s, v, T2, B2))) :
    (solve_LP_phase1 fuel T bases aux = some (Except.error SolveErr.infeasible)
      ↔ eps < v) ∧
    (¬ eps < v →
      solve_LP_phase1 fuel T bases aux =
        some (Except.ok
          (transform_canonical
            (zeroColumns
              (restoreObjective T2
                ((List.range (nCols T - 1)).map fun j => entry T 0 j)) aux) B2,
           B2)) ∧
      (∀ j ∈ aux, ∀ r : Nat,
        entry (transform_canonical
          (zeroColumns
            (restoreObjective T2
              ((List.range (nCols T - 1)).map fun j => entry T 0 j)) aux) B2)
          r j = 0)) := by
  have hne : aux.isEmpty = false := List.isEmpty_eq_false.mpr haux
  have hshape : solve_LP_phase1 fuel T bases aux =
      if eps < v then some (Except.error SolveErr.infeasible)
      else some (Except.ok
        (transform_canonical
          (zeroColumns
            (restoreObjective T2
              ((List.range (nCols T - 1)).map fun j => entry T 0 j)) aux) B2,
         B2)) := by
    unfold solve_LP_phase1
    rw [if_neg (by rw [hne]; exact Bool.false_ne_true)]
    simp only [hrun]
  refine ⟨?_, ?_⟩
  · rw [hshape]
    by_cases hv : eps < v
    · rw [if_pos hv]
      exact ⟨fun _ => hv, fun _ => rfl⟩
    · rw [if_neg hv]
      constructor
      · intro hcon
        exact absurd hcon (by simp)
      · intro hv2
        exact absurd hv2 hv
  · intro hv
    refine ⟨by rw [hshape, if_neg hv], ?_⟩
    intro j hj r
    cases r with
    | zero =>
        apply entry_transform_zero_col
        · exact entry_zeroColumns _ _ _ _ hj
        · intro rr
          exact entry_zeroColumns _ _ _ _ hj
    | succ rr =>
        rw [entry_transform_row_ne _ _ _ _ (by omega)]
        exact entry_zeroColumns _ _ _ _ hj

/-- Witness for C7 on the tableau `exTP` with auxiliary column 2: phase 1
terminates with value 0, so the solve is not Infeasible. -/
theorem solve_LP_phase1_spec_witness :
    (solve_LP_phase1 1 exTP [1] [2] = some (Except.error SolveErr.infeasible)
      ↔ eps < (0 : ℚ)) :=
  (solve_LP_phase1_spec 1 exTP [1] [2] (by decide) [0, 1, 0] 0
    [[0, 0, 1, 0], [1, 1, 1, 1]] [1] (by decide)).1

/-! ## Entry assertions -/

/-- C8 amended.  `solve_canonical_LP` accepts exactly the inputs whose basis
size matches the constraint-row count, whose objective coefficients at
basic columns are below `eps` in absolute value, and **all of whose
constraint right-hand sides strictly exceed `eps`** — a right-hand side
equal to 0 (allowed by the canonical invariants' "≥ 0 within tolerance") is
rejected with InvalidInput before any pivot; accepted inputs go straight to
the pivot loop. -/
theorem checkCanonical_spec (T : Mat) (bases : List Nat) :
    (checkCanonical T bases = true ↔
      (bases.length = nRows T - 1 ∧
       (∀ b ∈ bases, |entry T 0 b| < eps) ∧
       (∀ r < nRows T - 1, eps < entry T (r + 1) (nCols T - 1)))) ∧
    (checkCanonical T bases = false →
      ∀ fuel, solve_canonical_LP fuel T bases
        = some (Except.error SolveErr.invalidInput)) ∧
    (checkCanonical T bases = true →
      ∀ fuel, solve_canonical_LP fuel T bases = solveFuel fuel T bases) := by
  refine ⟨?_, ?_, ?_⟩
  · unfold checkCanonical
    simp only [Bool.and_eq_true, List.all_eq_true, decide_eq_true_eq, List.mem_range]
    rw [and_assoc]
  · intro hfalse fuel
    unfold solve_canonical_LP
    rw [if_neg (by rw [hfalse]; exact Bool.false_ne_true)]
  · intro htrue fuel
    unfold solve_canonical_LP
    rw [if_pos htrue]

/-- Witness for C8 (amended): `exT8` has a zero right-hand side, fails the
check, and is rejected before any pivot regardless of fuel. -/
theorem checkCanonical_spec_witness :
    checkCanonical exT8 exB8 = false ∧
    solve_canonical_LP 2 exT8 exB8 = some (Except.error SolveErr.invalidInput) :=
  ⟨by decide, (checkCanonical_spec exT8 exB8).2.1 (by decide) 2⟩

end Simplex
